import Mathlib

/-!
Verification of the real-time audio core of the `harmony_playground`
synthesizer (files `src/audio/synthesizer.rs` and `src/audio/engine.rs`).

Modelling conventions:
* `f32` values are modelled as exact real numbers `ℝ` (the tables contain
  transcendental values such as `sin`, and the gain uses `exp2`, so the
  idealised arithmetic is real arithmetic; rounding is not modelled).
* Rust's `%` on floats is truncated remainder: `a - b * trunc (a / b)`,
  modelled by `rustRem`.
* Rust's saturating float-to-`usize` cast `x as usize` is modelled by
  `toUsize` (truncation toward zero, saturating at `0` from below).
* `self.0[i]` on the `[f32; 1024]` array panics when `i ≥ 1024`; where that
  panic is observable (`WaveTable::get_index`) the access is modelled with
  `Option`, `none` standing for the panic.
* The `BTreeMap<usize, WaveTableOscillator>` registry is modelled as an
  association list kept sorted by key (`insertSorted` / `removeKey`),
  matching the map's ascending iteration order.
* The cross-thread cells `SharedFrequency` / `SharedVolumeMultiplier` are
  modelled by their current contents (single-threaded shallow embedding).
-/

/-- WAVETABLE_SIZE from `synthesizer.rs`: the number of samples per table. -/
def WAVETABLE_SIZE : ℕ := 1024

/-- Truncation toward zero of a real number, the rounding used by Rust's
float-to-int casts and by float `%`. -/
noncomputable def trunc (x : ℝ) : ℤ :=
if 0 ≤ x then ⌊x⌋ else ⌈x⌉

/-- Rust's `%` on floats: `a - b * trunc (a / b)` (truncated remainder). -/
noncomputable def rustRem (a b : ℝ) : ℝ :=
a - b * (trunc (a / b) : ℝ)

/-- Rust's `x as usize` on a float: truncate toward zero, saturating at 0
for negative inputs (the upper saturation bound is irrelevant here). -/
noncomputable def toUsize (x : ℝ) : ℕ :=
(trunc x).toNat

/-- lerp from `synthesizer.rs`: `(1.0 - t) * sample0 + t * sample1`. -/
noncomputable def lerp (sample0 sample1 t : ℝ) : ℝ :=
(1 - t) * sample0 + t * sample1

/-- WaveTable from `synthesizer.rs`: `[f32; WAVETABLE_SIZE]`. -/
structure WaveTable where
  table : Fin WAVETABLE_SIZE → ℝ

/-- WaveTable::from_fn: sample `f` at `i * (WAVETABLE_SIZE as f32).recip()`
for each index `i`. -/
noncomputable def WaveTable.from_fn (f : ℝ → ℝ) : WaveTable :=
⟨fun i => f ((i.val : ℝ) * (WAVETABLE_SIZE : ℝ)⁻¹)⟩

/-- WaveTable::sine: `(time * TAU).sin()` with `TAU = 2π`. -/
noncomputable def WaveTable.sine : WaveTable :=
WaveTable.from_fn (fun time => Real.sin (time * (2 * Real.pi)))

/-- WaveTable::triangle: `4.0 * (time + 0.25 - (time + 0.75).floor()).abs() - 1.0`. -/
noncomputable def WaveTable.triangle : WaveTable :=
WaveTable.from_fn (fun time => 4 * |time + 0.25 - (⌊time + 0.75⌋ : ℝ)| - 1)

/-- WaveTable::square: `if time <= 0.5 { 1.0 } else { -1.0 }`. -/
noncomputable def WaveTable.square : WaveTable :=
WaveTable.from_fn (fun time => if time ≤ 0.5 then 1 else -1)

/-- WaveTable::saw: `(2.0 * time + 3.0) % 2.0 - 1.0`. -/
noncomputable def WaveTable.saw : WaveTable :=
WaveTable.from_fn (fun time => rustRem (2 * time + 3) 2 - 1)

/-- Default for WaveTable: `Self::sine()`. -/
noncomputable def WaveTable.default : WaveTable :=
WaveTable.sine

/-- WaveTable::get_index: `self.0[index]`. The array access panics when
`index ≥ WAVETABLE_SIZE`; the panic is modelled by `none`. -/
def WaveTable.get_index (w : WaveTable) (index : ℕ) : Option ℝ :=
if h : index < WAVETABLE_SIZE then some (w.table ⟨index, h⟩) else none

/-- WaveTable::get_interpolated_value: reduce the index with float `%`,
truncate to get the base index, and linearly interpolate between that
sample and its (wrapped) successor. The in-range check on the first array
access mirrors the bounds check of `self.0[floor]`; the `else` branch is
proved unreachable below. -/
noncomputable def WaveTable.get_interpolated_value (w : WaveTable) (index : ℝ) : ℝ :=
let index' := rustRem index (WAVETABLE_SIZE : ℝ)
let fl := toUsize index'
if h : fl < WAVETABLE_SIZE then
  lerp (w.table ⟨fl, h⟩) (w.table ⟨(fl + 1) % WAVETABLE_SIZE, Nat.mod_lt _ (by decide)⟩)
    (index' - (fl : ℝ))
else 0

/-- Interpolated lookup stated in the words of the spec: reduce the index
by the mathematical modulo (`index' = index mod N`), then linearly
interpolate between `table[floor(index')]` and `table[(floor(index')+1)
mod N]` using the fractional part of `index'` as the weight. This is the
refinement target that `WaveTable.get_interpolated_value` is compared to. -/
noncomputable def interpolatedSpec (w : WaveTable) (index : ℝ) : ℝ :=
let index' := index - (WAVETABLE_SIZE : ℝ) * (⌊index / (WAVETABLE_SIZE : ℝ)⌋ : ℝ)
let k := (⌊index'⌋).toNat
lerp (w.table ⟨k % WAVETABLE_SIZE, Nat.mod_lt _ (by decide)⟩)
  (w.table ⟨(k + 1) % WAVETABLE_SIZE, Nat.mod_lt _ (by decide)⟩)
  (Int.fract index')

theorem trunc_of_nonneg {x : ℝ} (h : 0 ≤ x) : trunc x = ⌊x⌋ := by
  simp [trunc, h]

theorem rustRem_nonneg_bounds {a b : ℝ} (ha : 0 ≤ a) (hb : 0 < b) :
    0 ≤ rustRem a b ∧ rustRem a b < b := by
  have hq : 0 ≤ a / b := div_nonneg ha hb.le
  have h1 : rustRem a b = b * Int.fract (a / b) := by
    rw [rustRem, trunc_of_nonneg hq, Int.fract]
    field_simp
  constructor
  · rw [h1]
    exact mul_nonneg hb.le (Int.fract_nonneg _)
  · rw [h1]
    calc b * Int.fract (a / b) < b * 1 := by
          exact (mul_lt_mul_left hb).mpr (Int.fract_lt_one _)
      _ = b := mul_one b

theorem rustRem_eq_of {a b r : ℝ} (q : ℤ) (ha : 0 ≤ a) (hb : 0 < b)
    (heq : a = q * b + r) (hr0 : 0 ≤ r) (hr1 : r < b) : rustRem a b = r := by
  have hdiv : a / b = q + r / b := by
    rw [heq]; field_simp
  have hfloor : ⌊a / b⌋ = q := by
    rw [hdiv]
    rw [Int.floor_eq_iff]
    constructor
    · nlinarith [div_nonneg hr0 hb.le]
    · have : r / b < 1 := (div_lt_one hb).mpr hr1
      linarith
  have hq : 0 ≤ a / b := div_nonneg ha hb.le
  rw [rustRem, trunc_of_nonneg hq, hfloor, heq]
  ring

/-- Claim C1, counterexample: the square table's sample at the midpoint
index `512` is not `-1.0`. The generator is `if time <= 0.5 { 1.0 } else
{ -1.0 }` and index 512 samples it at exactly `time = 0.5`, which falls in
the `<=` branch, giving `1.0`. -/
theorem claim_C1_square_midpoint_cex :
    WaveTable.square.table ⟨512, by decide⟩ ≠ -1 := by
  simp only [WaveTable.square, WaveTable.from_fn, Fin.val_mk]
  norm_num [WAVETABLE_SIZE]

/-- Claim C1 (amended): the sine table's sample at index 0 is `0.0`; the
square table's sample at index 0 is `1.0`; the square table's sample at the
midpoint index `512` is `1.0` (not `-1.0`: the generator uses `<=`, so the
midpoint lies in the high half); the first `-1.0` sample is at index 513. -/
theorem claim_C1_wavetable_values :
    WaveTable.sine.table ⟨0, by decide⟩ = 0 ∧
    WaveTable.square.table ⟨0, by decide⟩ = 1 ∧
    WaveTable.square.table ⟨512, by decide⟩ = 1 ∧
    WaveTable.square.table ⟨513, by decide⟩ = -1 := by
  refine ⟨?_, ?_, ?_, ?_⟩
  · simp [WaveTable.sine, WaveTable.from_fn]
  · simp only [WaveTable.square, WaveTable.from_fn, Fin.val_mk]
    norm_num [WAVETABLE_SIZE]
  · simp only [WaveTable.square, WaveTable.from_fn, Fin.val_mk]
    norm_num [WAVETABLE_SIZE]
  · simp only [WaveTable.square, WaveTable.from_fn, Fin.val_mk]
    norm_num [WAVETABLE_SIZE]

/-- Claim C2, counterexample: `get_index` does not wrap the index modulo N;
the raw array access `self.0[index]` panics (modelled as `none`) at
`index = 1024`, so the lookup does have an error path. -/
theorem claim_C2_get_index_cex :
    WaveTable.square.get_index 1024 = none := by
  simp [WaveTable.get_index, WAVETABLE_SIZE]

/-- Claim C2 (amended): `get_index i` returns the table sample at position
`i` (with no modulo reduction) whenever `i < N`, and panics (no value) for
every `i ≥ N`. -/
theorem claim_C2_get_index_amended (w : WaveTable) (i : ℕ) :
    ((h : i < WAVETABLE_SIZE) → w.get_index i = some (w.table ⟨i, h⟩)) ∧
    (WAVETABLE_SIZE ≤ i → w.get_index i = none) := by
  constructor
  · intro h
    simp [WaveTable.get_index, h]
  · intro h
    simp [WaveTable.get_index, Nat.not_lt.mpr h]

/-- Claim C2 (amended), witness at concrete inputs: index 0 is in range and
returns the raw sample; index 2048 is out of range and panics. -/
theorem claim_C2_get_index_amended_witness :
    ((0 < WAVETABLE_SIZE) ∧
      WaveTable.square.get_index 0 = some (WaveTable.square.table ⟨0, by decide⟩)) ∧
    ((WAVETABLE_SIZE ≤ 2048) ∧ WaveTable.square.get_index 2048 = none) :=
  ⟨⟨by decide, (claim_C2_get_index_amended WaveTable.square 0).1 (by decide)⟩,
   ⟨by decide, (claim_C2_get_index_amended WaveTable.square 2048).2 (by decide)⟩⟩

theorem wavetable_size_pos_real : (0 : ℝ) < (WAVETABLE_SIZE : ℝ) := by
  norm_num [WAVETABLE_SIZE]

theorem toUsize_of_nonneg {y : ℝ} (h : 0 ≤ y) : toUsize y = (⌊y⌋).toNat := by
  rw [toUsize, trunc_of_nonneg h]

theorem toUsize_lt_of {y : ℝ} {n : ℕ} (h0 : 0 ≤ y) (h1 : y < (n : ℝ)) :
    toUsize y < n := by
  rw [toUsize_of_nonneg h0]
  have hf : ⌊y⌋ < (n : ℤ) := by
    rw [Int.floor_lt]
    exact_mod_cast h1
  have h2 : (0 : ℤ) ≤ ⌊y⌋ := Int.floor_nonneg.mpr h0
  omega

theorem toUsize_cast_of_nonneg {y : ℝ} (h : 0 ≤ y) :
    ((toUsize y : ℕ) : ℝ) = ((⌊y⌋ : ℤ) : ℝ) := by
  rw [toUsize_of_nonneg h]
  have h2 : (0 : ℤ) ≤ ⌊y⌋ := Int.floor_nonneg.mpr h
  exact_mod_cast congrArg (fun z : ℤ => (z : ℝ)) (Int.toNat_of_nonneg h2)

theorem interp_eq_spec (w : WaveTable) (x : ℝ) (hx : 0 ≤ x) :
    w.get_interpolated_value x = interpolatedSpec w x := by
  have hN : (0 : ℝ) < (WAVETABLE_SIZE : ℝ) := wavetable_size_pos_real
  obtain ⟨h0, h1⟩ := rustRem_nonneg_bounds hx hN
  have hrr : rustRem x (WAVETABLE_SIZE : ℝ) =
      x - (WAVETABLE_SIZE : ℝ) * (⌊x / (WAVETABLE_SIZE : ℝ)⌋ : ℝ) := by
    rw [rustRem, trunc_of_nonneg (div_nonneg hx hN.le)]
  have hfl_lt : toUsize (rustRem x (WAVETABLE_SIZE : ℝ)) < WAVETABLE_SIZE := by
    exact toUsize_lt_of h0 (by exact_mod_cast h1)
  rw [WaveTable.get_interpolated_value, interpolatedSpec]
  simp only [← hrr]
  rw [dif_pos hfl_lt]
  have hk : toUsize (rustRem x (WAVETABLE_SIZE : ℝ)) =
      (⌊rustRem x (WAVETABLE_SIZE : ℝ)⌋).toNat := toUsize_of_nonneg h0
  have hmod : toUsize (rustRem x (WAVETABLE_SIZE : ℝ)) % WAVETABLE_SIZE =
      toUsize (rustRem x (WAVETABLE_SIZE : ℝ)) := Nat.mod_eq_of_lt hfl_lt
  have hfrac : rustRem x (WAVETABLE_SIZE : ℝ) -
      ((toUsize (rustRem x (WAVETABLE_SIZE : ℝ)) : ℕ) : ℝ) =
      Int.fract (rustRem x (WAVETABLE_SIZE : ℝ)) := by
    rw [toUsize_cast_of_nonneg h0, Int.fract]
  rw [hfrac]
  have hv1 : (⌊rustRem x (WAVETABLE_SIZE : ℝ)⌋).toNat % WAVETABLE_SIZE =
      toUsize (rustRem x (WAVETABLE_SIZE : ℝ)) := by
    rw [← hk]; exact hmod
  have hv2 : (toUsize (rustRem x (WAVETABLE_SIZE : ℝ)) + 1) % WAVETABLE_SIZE =
      ((⌊rustRem x (WAVETABLE_SIZE : ℝ)⌋).toNat + 1) % WAVETABLE_SIZE := by
    rw [hk]
  congr 1
  · exact congrArg w.table (Fin.ext hv1.symm)
  · exact congrArg w.table (Fin.ext hv2)

theorem nat_div_mul_add_mod (n : ℕ) :
    n / WAVETABLE_SIZE * WAVETABLE_SIZE + n % WAVETABLE_SIZE = n := by
  rw [Nat.mul_comm]
  exact Nat.div_add_mod n WAVETABLE_SIZE

theorem rustRem_natCast (n : ℕ) :
    rustRem (n : ℝ) (WAVETABLE_SIZE : ℝ) = ((n % WAVETABLE_SIZE : ℕ) : ℝ) := by
  refine rustRem_eq_of ((n / WAVETABLE_SIZE : ℕ) : ℤ) (Nat.cast_nonneg n)
    wavetable_size_pos_real ?_ (Nat.cast_nonneg _) ?_
  · rw [Int.cast_natCast]
    exact_mod_cast (nat_div_mul_add_mod n).symm
  · exact_mod_cast Nat.mod_lt n (by decide)

theorem rustRem_natCast_add_half (n : ℕ) :
    rustRem ((n : ℝ) + 1 / 2) (WAVETABLE_SIZE : ℝ) =
      ((n % WAVETABLE_SIZE : ℕ) : ℝ) + 1 / 2 := by
  have hmlt : n % WAVETABLE_SIZE < WAVETABLE_SIZE := Nat.mod_lt n (by decide)
  refine rustRem_eq_of ((n / WAVETABLE_SIZE : ℕ) : ℤ) (by positivity)
    wavetable_size_pos_real ?_ (by positivity) ?_
  · rw [Int.cast_natCast]
    have hdm3 : (n : ℝ) =
        ((n / WAVETABLE_SIZE : ℕ) : ℝ) * (WAVETABLE_SIZE : ℝ) +
          ((n % WAVETABLE_SIZE : ℕ) : ℝ) := by
      exact_mod_cast (nat_div_mul_add_mod n).symm
    linarith
  · have h1 : ((n % WAVETABLE_SIZE : ℕ) : ℝ) + 1 ≤ (WAVETABLE_SIZE : ℝ) := by
      exact_mod_cast Nat.succ_le_of_lt hmlt
    linarith

theorem toUsize_natCast (m : ℕ) : toUsize (m : ℝ) = m := by
  rw [toUsize_of_nonneg (Nat.cast_nonneg m), Int.floor_natCast]
  simp

theorem toUsize_natCast_add_half (m : ℕ) : toUsize ((m : ℝ) + 1 / 2) = m := by
  rw [toUsize_of_nonneg (by positivity)]
  have hf : ⌊(m : ℝ) + 1 / 2⌋ = (m : ℤ) := by
    rw [Int.floor_eq_iff]
    constructor
    · push_cast
      linarith
    · push_cast
      linarith
  rw [hf]
  simp

theorem interp_at_natCast (w : WaveTable) (n : ℕ) :
    w.get_interpolated_value (n : ℝ) =
      w.table ⟨n % WAVETABLE_SIZE, Nat.mod_lt _ (by decide)⟩ := by
  rw [WaveTable.get_interpolated_value]
  simp only [rustRem_natCast, toUsize_natCast]
  rw [dif_pos (Nat.mod_lt _ (by decide))]
  simp [lerp]

theorem interp_at_natCast_add_half (w : WaveTable) (n : ℕ) :
    w.get_interpolated_value ((n : ℝ) + 1 / 2) =
      (w.table ⟨n % WAVETABLE_SIZE, Nat.mod_lt _ (by decide)⟩ +
       w.table ⟨(n + 1) % WAVETABLE_SIZE, Nat.mod_lt _ (by decide)⟩) / 2 := by
  rw [WaveTable.get_interpolated_value]
  simp only [rustRem_natCast_add_half, toUsize_natCast_add_half]
  rw [dif_pos (Nat.mod_lt _ (by decide))]
  have hidx : (n % WAVETABLE_SIZE + 1) % WAVETABLE_SIZE = (n + 1) % WAVETABLE_SIZE := by
    conv_rhs => rw [Nat.add_mod]
    have h1 : (1 : ℕ) % WAVETABLE_SIZE = 1 := by decide
    rw [h1]
  have htb : w.table ⟨(n % WAVETABLE_SIZE + 1) % WAVETABLE_SIZE,
      Nat.mod_lt _ (by decide)⟩ =
      w.table ⟨(n + 1) % WAVETABLE_SIZE, Nat.mod_lt _ (by decide)⟩ :=
    congrArg w.table (Fin.ext hidx)
  rw [htb]
  have hfrac : ((n % WAVETABLE_SIZE : ℕ) : ℝ) + 1 / 2 - ((n % WAVETABLE_SIZE : ℕ) : ℝ)
      = 1 / 2 := by ring
  rw [hfrac]
  rw [lerp]
  ring

/-- Claim C6: for every non-negative index, `get_interpolated_value` equals
the spec's linear interpolation between `table[floor(index mod N)]` and
`table[(floor(index mod N)+1) mod N]` weighted by the fractional part
(`interpolatedSpec`); at an exact integer index it returns the raw sample
at that index (mod N); at a half-integer index it returns the arithmetic
mean of the two neighbouring samples; and the internal array access is
always in bounds for non-negative input (no panic / error path). -/
theorem claim_C6_interpolation (w : WaveTable) :
    (∀ x : ℝ, 0 ≤ x → w.get_interpolated_value x = interpolatedSpec w x) ∧
    (∀ n : ℕ, w.get_interpolated_value (n : ℝ) =
        w.table ⟨n % WAVETABLE_SIZE, Nat.mod_lt _ (by decide)⟩) ∧
    (∀ n : ℕ, w.get_interpolated_value ((n : ℝ) + 1 / 2) =
        (w.table ⟨n % WAVETABLE_SIZE, Nat.mod_lt _ (by decide)⟩ +
         w.table ⟨(n + 1) % WAVETABLE_SIZE, Nat.mod_lt _ (by decide)⟩) / 2) ∧
    (∀ x : ℝ, 0 ≤ x → toUsize (rustRem x (WAVETABLE_SIZE : ℝ)) < WAVETABLE_SIZE) :=
  ⟨fun x hx => interp_eq_spec w x hx,
   fun n => interp_at_natCast w n,
   fun n => interp_at_natCast_add_half w n,
   fun x hx => by
     obtain ⟨h0, h1⟩ := rustRem_nonneg_bounds hx wavetable_size_pos_real
     exact toUsize_lt_of h0 (by exact_mod_cast h1)⟩

/-- Claim C6, witness at concrete inputs: the refinement equation holds at
index `512.25`, and the array access is in bounds at index `2048.5`. -/
theorem claim_C6_interpolation_witness :
    ((0 : ℝ) ≤ 512.25 ∧
      WaveTable.square.get_interpolated_value 512.25 =
        interpolatedSpec WaveTable.square 512.25) ∧
    ((0 : ℝ) ≤ 2048.5 ∧
      toUsize (rustRem 2048.5 (WAVETABLE_SIZE : ℝ)) < WAVETABLE_SIZE) :=
  ⟨⟨by norm_num, (claim_C6_interpolation WaveTable.square).1 512.25 (by norm_num)⟩,
   ⟨by norm_num,
    (claim_C6_interpolation WaveTable.square).2.2.2 2048.5 (by norm_num)⟩⟩

/-- WaveForm from `synthesizer.rs`: the four built-in waveform kinds. -/
inductive WaveForm where
  | sine
  | triangle
  | square
  | saw

/-- Volume from `engine.rs`: a base-2 log-domain gain, clamped to be at
most zero at construction. -/
structure Volume where
  val : ℝ

/-- Volume::new: `volume.clamp(f32::NEG_INFINITY, 0.0)`, i.e. `min volume 0`
for finite input. -/
noncomputable def Volume.new (volume : ℝ) : Volume :=
⟨min volume 0⟩

/-- Volume::get: the stored log-domain value. -/
def Volume.get (v : Volume) : ℝ :=
v.val

/-- Volume::multiple: `self.0.exp2()`, the linear multiplier `2^value`. -/
noncomputable def Volume.multiple (v : Volume) : ℝ :=
(2 : ℝ) ^ v.val

/-- SharedFrequency from `engine.rs`: an `Arc<RwLock<f32>>` frequency cell,
modelled by its current contents. -/
structure SharedFrequency where
  val : ℝ

/-- SharedFrequency::new stores the initial value with no clamp. -/
def SharedFrequency.new (frequency : ℝ) : SharedFrequency :=
⟨frequency⟩

/-- SharedFrequency::get reads the current value. -/
def SharedFrequency.get (c : SharedFrequency) : ℝ :=
c.val

/-- SharedFrequency::set stores a new value with no clamp. -/
def SharedFrequency.set (_c : SharedFrequency) (frequency : ℝ) : SharedFrequency :=
⟨frequency⟩

/-- SharedVolumeMultiplier from `engine.rs`: an `Arc<RwLock<f32>>` linear
volume cell, modelled by its current contents. -/
structure SharedVolumeMultiplier where
  val : ℝ

/-- SharedVolumeMultiplier::new stores the initial value with no clamp. -/
def SharedVolumeMultiplier.new (volume_multiplier : ℝ) : SharedVolumeMultiplier :=
⟨volume_multiplier⟩

/-- SharedVolumeMultiplier::get reads the current value. -/
def SharedVolumeMultiplier.get (c : SharedVolumeMultiplier) : ℝ :=
c.val

/-- SharedVolumeMultiplier::set: `volume_multiplier.clamp(0.0, 1.0)` before
storing, i.e. `min (max v 0) 1`. -/
noncomputable def SharedVolumeMultiplier.set (_c : SharedVolumeMultiplier)
    (volume_multiplier : ℝ) : SharedVolumeMultiplier :=
⟨min (max volume_multiplier 0) 1⟩

/-- WaveTableOscillator from `synthesizer.rs` (the `_sample_rate` field is
called `sample_rate` here). -/
structure WaveTableOscillator where
  sample_rate : ℕ
  sample_rate_recip : ℝ
  frequency : SharedFrequency
  volume_multiplier : SharedVolumeMultiplier
  wavetable : WaveTable
  time : ℝ

/-- WaveTableOscillator::new: precompute `(sample_rate as f32).recip()` and
start at phase `time = 0`. -/
noncomputable def WaveTableOscillator.new (sample_rate : ℕ)
    (frequency : SharedFrequency) (volume_multiplier : SharedVolumeMultiplier)
    (wavetable : WaveTable) : WaveTableOscillator :=
⟨sample_rate, (sample_rate : ℝ)⁻¹, frequency, volume_multiplier, wavetable, 0⟩

/-- WaveTableOscillator::set_wavetable replaces the private table and
nothing else. -/
def WaveTableOscillator.set_wavetable (o : WaveTableOscillator)
    (wavetable : WaveTable) : WaveTableOscillator :=
{ o with wavetable := wavetable }

/-- Iterator::next for WaveTableOscillator: look up the interpolated sample
at the pre-advance phase scaled by N, advance the phase by
`frequency.get() * sample_rate_recip`, wrap it with float `%` by
`WAVETABLE_SIZE`, and return the sample times `volume_multiplier.get()`. -/
noncomputable def WaveTableOscillator.next (o : WaveTableOscillator) :
    Option (ℝ × WaveTableOscillator) :=
let sample := o.wavetable.get_interpolated_value (o.time * (WAVETABLE_SIZE : ℝ))
let time1 := o.time + o.frequency.get * o.sample_rate_recip
some (sample * o.volume_multiplier.get,
  { o with time := rustRem time1 (WAVETABLE_SIZE : ℝ) })

/-- Sample produced by one oscillator step (first component of `next`). -/
noncomputable def WaveTableOscillator.next_sample (o : WaveTableOscillator) : ℝ :=
match o.next with
| some p => p.1
| none => 0

/-- Sorted insertion into the id-keyed registry, modelling
`BTreeMap::insert` and the map's ascending iteration order. -/
def insertSorted (k : ℕ) (v : WaveTableOscillator) :
    List (ℕ × WaveTableOscillator) → List (ℕ × WaveTableOscillator)
  | [] => [(k, v)]
  | (k', v') :: rest =>
    if k < k' then (k, v) :: (k', v') :: rest
    else if k = k' then (k, v) :: rest
    else (k', v') :: insertSorted k v rest

/-- Removal from the id-keyed registry, modelling `BTreeMap::remove`
(keys are unique, so removing the first match removes the entry). -/
def removeKey (k : ℕ) :
    List (ℕ × WaveTableOscillator) → List (ℕ × WaveTableOscillator)
  | [] => []
  | (k', v') :: rest => if k' = k then rest else (k', v') :: removeKey k rest

/-- AudioEngine from `engine.rs` (the `_time` field is called `time` here). -/
structure AudioEngine where
  sample_rate : ℕ
  wavetable : WaveTable
  oscillators : List (ℕ × WaveTableOscillator)
  time : ℝ
  volume_multiple : ℝ
  volume : Volume
  latestid : ℕ
  is_playing : Bool

/-- AudioEngine::new: default (sine) wavetable, empty registry, volume
`Volume::new(-4.0)` with its cached linear multiple, id counter 0, not
playing. -/
noncomputable def AudioEngine.new (sample_rate : ℕ) : AudioEngine :=
let volume := Volume.new (-4)
{ sample_rate := sample_rate
  wavetable := WaveTable.default
  oscillators := []
  time := 0
  volume_multiple := volume.multiple
  volume := volume
  latestid := 0
  is_playing := false }

/-- AudioEngine::play sets the playing flag. -/
def AudioEngine.play (e : AudioEngine) : AudioEngine :=
{ e with is_playing := true }

/-- AudioEngine::stop clears the playing flag. -/
def AudioEngine.stop (e : AudioEngine) : AudioEngine :=
{ e with is_playing := false }

/-- AudioEngine::get_volume returns the current volume. -/
def AudioEngine.get_volume (e : AudioEngine) : Volume :=
e.volume

/-- AudioEngine::set_volume stores the new volume and caches its linear
multiple. -/
noncomputable def AudioEngine.set_volume (e : AudioEngine) (new_volume : Volume) :
    AudioEngine :=
{ e with volume_multiple := new_volume.multiple, volume := new_volume }

/-- AudioEngine::add_oscillator: take the next id, bump the counter, insert
a fresh oscillator built from the engine's current wavetable, return the id. -/
noncomputable def AudioEngine.add_oscillator (e : AudioEngine)
    (frequency : SharedFrequency) (volume_multiplier : SharedVolumeMultiplier) :
    ℕ × AudioEngine :=
let id := e.latestid
(id,
  { e with
      latestid := id + 1
      oscillators := insertSorted id
        (WaveTableOscillator.new e.sample_rate frequency volume_multiplier e.wavetable)
        e.oscillators })

/-- AudioEngine::remove_oscillator: remove the entry with this id if present. -/
def AudioEngine.remove_oscillator (e : AudioEngine) (id : ℕ) : AudioEngine :=
{ e with oscillators := removeKey id e.oscillators }

/-- AudioEngine::clear_oscillators: empty the registry. -/
def AudioEngine.clear_oscillators (e : AudioEngine) : AudioEngine :=
{ e with oscillators := [] }

/-- AudioEngine::set_waveform: build the requested table, push it into
every existing voice, and store it as the template. -/
noncomputable def AudioEngine.set_waveform (e : AudioEngine) (waveform : WaveForm) :
    AudioEngine :=
let new_table :=
  match waveform with
  | WaveForm.sine => WaveTable.sine
  | WaveForm.triangle => WaveTable.triangle
  | WaveForm.square => WaveTable.square
  | WaveForm.saw => WaveTable.saw
{ e with
  oscillators := e.oscillators.map (fun p => (p.1, p.2.set_wavetable new_table))
  wavetable := new_table }

/-- The mixing loop of `AudioEngine`'s `Iterator::next`: step every voice
in registry order, accumulating `sum += osc.next().unwrap_or(0.0)` from the
given accumulator, and return the final sum with the updated voices. -/
noncomputable def stepVoices :
    List (ℕ × WaveTableOscillator) → ℝ → ℝ × List (ℕ × WaveTableOscillator)
  | [], sum => (sum, [])
  | (id, osc) :: rest, sum =>
    let r :=
      match osc.next with
      | some p => p
      | none => (0, osc)
    let out := stepVoices rest (sum + r.1)
    (out.1, (id, r.2) :: out.2)

/-- Iterator::next for AudioEngine: if not playing return `Some(0.0)`
without touching any voice; otherwise sum every voice's sample and return
the sum times the cached linear volume multiple. -/
noncomputable def AudioEngine.next (e : AudioEngine) : Option (ℝ × AudioEngine) :=
if !e.is_playing then some (0, e)
else
  let out := stepVoices e.oscillators 0
  some (out.1 * e.volume_multiple, { e with oscillators := out.2 })

/-- Claim C3: one oscillator step looks up the interpolated wavetable value
at the pre-advance phase times N, advances the phase by
`frequency.get() * sample_rate_recip`, wraps the phase with float `%` by
the table size 1024 (in cycles), and returns the looked-up sample times
`volume_multiplier.get()`; all other oscillator state is unchanged, and the
wrap constant `WAVETABLE_SIZE` is 1024. -/
theorem claim_C3_oscillator_step (o : WaveTableOscillator) :
    ∃ s o', o.next = some (s, o') ∧
      s = o.wavetable.get_interpolated_value (o.time * (WAVETABLE_SIZE : ℝ)) *
        o.volume_multiplier.get ∧
      o'.time = rustRem (o.time + o.frequency.get * o.sample_rate_recip)
        (WAVETABLE_SIZE : ℝ) ∧
      o'.frequency = o.frequency ∧
      o'.volume_multiplier = o.volume_multiplier ∧
      o'.wavetable = o.wavetable ∧
      o'.sample_rate_recip = o.sample_rate_recip ∧
      o'.sample_rate = o.sample_rate ∧
      (WAVETABLE_SIZE : ℝ) = 1024 :=
  ⟨_, _, rfl, rfl, rfl, rfl, rfl, rfl, rfl, rfl, by norm_num [WAVETABLE_SIZE]⟩

/-- Claim C5: whenever the engine is stopped, `next` returns `Some(0.0)`
and the whole engine state, in particular every voice's phase accumulator,
is exactly unchanged. -/
theorem claim_C5_stopped_frozen (e : AudioEngine) (h : e.is_playing = false) :
    e.next = some (0, e) := by
  simp [AudioEngine.next, h]

/-- Claim C5, witness: a freshly constructed engine is stopped, and `next`
on it returns `0.0` with the engine unchanged. -/
theorem claim_C5_stopped_frozen_witness :
    (AudioEngine.new 48000).is_playing = false ∧
    (AudioEngine.new 48000).next = some (0, AudioEngine.new 48000) :=
  ⟨rfl, claim_C5_stopped_frozen (AudioEngine.new 48000) rfl⟩

/-- Claim C7: `Volume::new` clamps to `(-∞, 0]`: for `g ≤ 0` the linear
multiplier is exactly `2 ^ g`, and for `g > 0` the stored log value is `0`
(construction is total by type: it never fails). -/
theorem claim_C7_gain_clamp (g : ℝ) :
    (g ≤ 0 → (Volume.new g).multiple = (2 : ℝ) ^ g) ∧
    (0 < g → (Volume.new g).get = 0) := by
  constructor
  · intro h
    rw [Volume.multiple, Volume.new]
    rw [min_eq_left h]
  · intro h
    rw [Volume.get, Volume.new]
    rw [min_eq_right h.le]

/-- Claim C7, witness: at `g = -4` the multiplier is `2 ^ (-4)`, and at
`g = 1` the clamped value is `0`. -/
theorem claim_C7_gain_clamp_witness :
    ((-4 : ℝ) ≤ 0 ∧ (Volume.new (-4)).multiple = (2 : ℝ) ^ (-4 : ℝ)) ∧
    ((0 : ℝ) < 1 ∧ (Volume.new 1).get = 0) :=
  ⟨⟨by norm_num, (claim_C7_gain_clamp (-4)).1 (by norm_num)⟩,
   ⟨by norm_num, (claim_C7_gain_clamp 1).2 (by norm_num)⟩⟩

/-- Claim C10: the volume-multiplier cell's constructor does not clamp —
`get` returns exactly the initial value, including values outside `[0,1]`
such as `2.0` and `-1.0` — while `set` is the operation that clamps its
argument to `[0,1]`. -/
theorem claim_C10_cell_ctor_no_clamp :
    (∀ v : ℝ, (SharedVolumeMultiplier.new v).get = v) ∧
    (SharedVolumeMultiplier.new 2).get = 2 ∧
    (SharedVolumeMultiplier.new (-1)).get = -1 ∧
    (∀ (c : SharedVolumeMultiplier) (v : ℝ),
      (c.set v).get = min (max v 0) 1) :=
  ⟨fun _ => rfl, rfl, rfl, fun _ _ => rfl⟩

theorem removeKey_absent (id : ℕ) (l : List (ℕ × WaveTableOscillator))
    (h : ∀ p ∈ l, p.1 ≠ id) : removeKey id l = l := by
  induction l with
  | nil => rfl
  | cons hd tl ih =>
    obtain ⟨k', v'⟩ := hd
    have hk : k' ≠ id := h (k', v') (List.mem_cons_self _ _)
    simp only [removeKey, if_neg hk]
    rw [ih (fun p hp => h p (List.mem_cons_of_mem _ hp))]

/-- Claim C9: removing an id that is not in the registry is a total no-op:
no panic, no error, and the entire engine state (registry, id counter,
gain, cached multiple, waveform template, play flag) is unchanged. -/
theorem claim_C9_remove_absent (e : AudioEngine) (id : ℕ)
    (h : ∀ p ∈ e.oscillators, p.1 ≠ id) :
    e.remove_oscillator id = e := by
  rw [AudioEngine.remove_oscillator, removeKey_absent id e.oscillators h]

/-- Claim C9, witness: on a fresh engine (empty registry) removing id 7
changes nothing. -/
theorem claim_C9_remove_absent_witness :
    (∀ p ∈ (AudioEngine.new 48000).oscillators, p.1 ≠ 7) ∧
    (AudioEngine.new 48000).remove_oscillator 7 = AudioEngine.new 48000 :=
  ⟨fun p hp => absurd hp (List.not_mem_nil p),
   claim_C9_remove_absent (AudioEngine.new 48000) 7
     (fun p hp => absurd hp (List.not_mem_nil p))⟩

/-- Sum of the samples the registered voices produce this step, in
registry order. -/
noncomputable def voicesSum (l : List (ℕ × WaveTableOscillator)) : ℝ :=
(l.map (fun p => p.2.next_sample)).sum

theorem stepVoices_sum (l : List (ℕ × WaveTableOscillator)) (acc : ℝ) :
    (stepVoices l acc).1 = acc + voicesSum l := by
  induction l generalizing acc with
  | nil => simp [stepVoices, voicesSum]
  | cons hd tl ih =>
    obtain ⟨i, o⟩ := hd
    simp only [stepVoices, WaveTableOscillator.next]
    rw [ih]
    simp only [voicesSum, List.map_cons, List.sum_cons,
      WaveTableOscillator.next_sample, WaveTableOscillator.next]
    ring

/-- Claim C4: while playing, `next` returns the unweighted sum of every
registered voice's per-step sample multiplied by the cached linear volume
multiple; when the cache agrees with the gain (as every construction site
maintains) and exactly two voices A and B are registered, the output is
`gain.multiplier() * (A.next_sample + B.next_sample)`. -/
theorem claim_C4_mixing (e : AudioEngine) (hp : e.is_playing = true) :
    (∃ e', e.next = some (e.volume_multiple * voicesSum e.oscillators, e')) ∧
    (e.volume_multiple = e.volume.multiple →
      ∀ (iA : ℕ) (A : WaveTableOscillator) (iB : ℕ) (B : WaveTableOscillator),
        e.oscillators = [(iA, A), (iB, B)] →
        ∃ e', e.next =
          some (e.volume.multiple * (A.next_sample + B.next_sample), e')) := by
  have hnext : e.next = some ((stepVoices e.oscillators 0).1 * e.volume_multiple,
      { e with oscillators := (stepVoices e.oscillators 0).2 }) := by
    simp [AudioEngine.next, hp]
  constructor
  · refine ⟨{ e with oscillators := (stepVoices e.oscillators 0).2 }, ?_⟩
    rw [hnext]
    congr 1
    rw [stepVoices_sum]
    ring_nf
  · intro hsync iA A iB B hosc
    refine ⟨{ e with oscillators := (stepVoices e.oscillators 0).2 }, ?_⟩
    rw [hnext]
    congr 1
    rw [stepVoices_sum, hosc, ← hsync]
    simp only [voicesSum, List.map_cons, List.map_nil, List.sum_cons,
      List.sum_nil]
    ring_nf

/-- Concrete engine with two voices (ids 0 and 1) in the playing state,
used to witness the mixing claim. -/
noncomputable def engineTwoVoices : AudioEngine :=
((((AudioEngine.new 48000).add_oscillator (SharedFrequency.new 440)
    (SharedVolumeMultiplier.new 1)).2).add_oscillator (SharedFrequency.new 660)
    (SharedVolumeMultiplier.new 1)).2.play

/-- The first voice of `engineTwoVoices`. -/
noncomputable def oscVoiceA : WaveTableOscillator :=
WaveTableOscillator.new 48000 (SharedFrequency.new 440)
  (SharedVolumeMultiplier.new 1) WaveTable.default

/-- The second voice of `engineTwoVoices`. -/
noncomputable def oscVoiceB : WaveTableOscillator :=
WaveTableOscillator.new 48000 (SharedFrequency.new 660)
  (SharedVolumeMultiplier.new 1) WaveTable.default

/-- Claim C4, witness: the two-voice engine is playing, its cached multiple
agrees with its gain, its registry is exactly voices A and B, and `next`
returns the gain multiplier times the sum of the two voices' samples. -/
theorem claim_C4_mixing_witness :
    (engineTwoVoices.is_playing = true ∧
      engineTwoVoices.volume_multiple = engineTwoVoices.volume.multiple ∧
      engineTwoVoices.oscillators = [(0, oscVoiceA), (1, oscVoiceB)]) ∧
    (∃ e', engineTwoVoices.next =
        some (engineTwoVoices.volume_multiple * voicesSum engineTwoVoices.oscillators,
          e')) ∧
    (∃ e', engineTwoVoices.next =
        some (engineTwoVoices.volume.multiple *
          (oscVoiceA.next_sample + oscVoiceB.next_sample), e')) :=
  ⟨⟨rfl, rfl, rfl⟩, (claim_C4_mixing engineTwoVoices rfl).1,
   (claim_C4_mixing engineTwoVoices rfl).2 rfl 0 oscVoiceA 1 oscVoiceB rfl⟩

/-- A control-thread registry operation: add a voice (with its two shared
cells) or remove a voice by id. -/
inductive EngineOp where
  | add (frequency : SharedFrequency) (volume_multiplier : SharedVolumeMultiplier)
  | remove (id : ℕ)

/-- Apply one registry operation, returning the new engine and the id the
operation returned (`some` for add, `none` for remove). -/
noncomputable def applyOp (e : AudioEngine) : EngineOp → AudioEngine × Option ℕ
  | EngineOp.add f v =>
    let r := e.add_oscillator f v
    (r.2, some r.1)
  | EngineOp.remove id => (e.remove_oscillator id, none)

/-- Run a sequence of registry operations and collect, in order, the ids
returned by the `add` operations. -/
noncomputable def runIds (e : AudioEngine) : List EngineOp → List ℕ
  | [] => []
  | op :: rest =>
    let r := applyOp e op
    match r.2 with
    | some id => id :: runIds r.1 rest
    | none => runIds r.1 rest

theorem runIds_lower_bound (ops : List EngineOp) (e : AudioEngine) :
    ∀ i ∈ runIds e ops, e.latestid ≤ i := by
  induction ops generalizing e with
  | nil =>
    intro i hi
    simp [runIds] at hi
  | cons op rest ih =>
    intro i hi
    cases op with
    | add f v =>
      simp only [runIds, applyOp, AudioEngine.add_oscillator, List.mem_cons] at hi
      rcases hi with h | h
      · exact Nat.le_of_eq h.symm
      · have := ih _ i h
        simp only [AudioEngine.add_oscillator] at this
        omega
    | remove id =>
      simp only [runIds, applyOp, AudioEngine.remove_oscillator] at hi
      exact ih { e with oscillators := removeKey id e.oscillators } i hi

theorem runIds_pairwise (ops : List EngineOp) (e : AudioEngine) :
    (runIds e ops).Pairwise (· < ·) := by
  induction ops generalizing e with
  | nil => simp [runIds]
  | cons op rest ih =>
    cases op with
    | add f v =>
      simp only [runIds, applyOp, AudioEngine.add_oscillator]
      refine List.Pairwise.cons ?_ (ih _)
      intro j hj
      have hle := runIds_lower_bound rest _ j hj
      exact Nat.lt_of_succ_le hle
    | remove id =>
      simp only [runIds, applyOp]
      exact ih _

/-- Claim C8: over any sequence of add/remove operations the ids returned
by the adds are pairwise strictly increasing in order of return — each add
returns an id strictly greater than every previously returned id, so ids
are never reused even after removal — and starting from a fresh engine the
first add returns id 0. -/
theorem claim_C8_voice_ids :
    (∀ (e : AudioEngine) (ops : List EngineOp),
      (runIds e ops).Pairwise (· < ·)) ∧
    (∀ (sample_rate : ℕ) (f : SharedFrequency) (v : SharedVolumeMultiplier)
        (ops : List EngineOp),
      ∃ t, runIds (AudioEngine.new sample_rate) (EngineOp.add f v :: ops) =
        0 :: t) :=
  ⟨fun e ops => runIds_pairwise ops e,
   fun _ _ _ _ => ⟨_, rfl⟩⟩
